import Mathlib

/-!
Verification of the `xml_iterator` streaming XML pipeline.

The repository ships the callers of the core pipeline (tests, examples,
benchmarks); the core itself (`xml_iterator.core` / the native
`xml_iterator.xml_iterator` module) is not part of the source tree, so the
scanner, the bounded event iterator, the dict reducer and the edge-count
aggregator below are modelled from the specification, as noted on each
definition.
-/

set_option maxRecDepth 10000

namespace XmlIterator

/-- Modelled from the spec: `XmlEvent` — tagged variant
`Start{name, attributes}` | `End{name}` | `Text{content}`, produced in
strict document order. -/
inductive XmlEvent where
  | startE (name : String) (attrs : List (String × String))
  | endE (name : String)
  | textE (content : String)
deriving DecidableEq, Repr

/-- Modelled from the spec: the error kinds of §7 that the scanner can
raise (`IOFailure` concerns the external file system and is out of the
embedding's scope). `malformedInput` carries the number of characters
consumed before the offending construct. -/
inductive ScanError where
  | malformedInput (pos : Nat)
  | unsupportedEncoding (declared : String)
deriving DecidableEq, Repr

/-- A well-formed XML document fragment: either a text run or an element
with a name, an ordered attribute list and an ordered list of children.
This is the tree the event stream of a well-formed document flattens. -/
inductive Content where
  | textC (s : String)
  | elemC (name : String) (attrs : List (String × String)) (children : List Content)
deriving Repr

mutual

/-- Event stream of one content item, in document order: a `Start`, the
events of the children, then the matching `End` (text becomes one `Text`
event). -/
def flattenC : Content → List XmlEvent
  | .textC s => [.textE s]
  | .elemC n a cs => .startE n a :: flattenL cs ++ [.endE n]

/-- Event stream of a list of sibling content items, in document order. -/
def flattenL : List Content → List XmlEvent
  | [] => []
  | c :: cs => flattenC c ++ flattenL cs

end

mutual

/-- Number of elements in a content item. -/
def elemCountC : Content → Nat
  | .textC _ => 0
  | .elemC _ _ cs => 1 + elemCountL cs

/-- Number of elements in a list of sibling content items. -/
def elemCountL : List Content → Nat
  | [] => 0
  | c :: cs => elemCountC c + elemCountL cs

end

/-- Mutual induction principle for `Content` and `List Content`. -/
theorem contentInd (P : Content → Prop) (Q : List Content → Prop)
    (h1 : ∀ s, P (.textC s))
    (h2 : ∀ n a cs, Q cs → P (.elemC n a cs))
    (h3 : Q [])
    (h4 : ∀ c cs, P c → Q cs → Q (c :: cs)) :
    (∀ c, P c) ∧ (∀ cs, Q cs) := by
  have hc : ∀ c, P c := fun c => Content.rec h1 h2 h3 h4 c
  refine ⟨hc, ?_⟩
  intro cs
  induction cs with
  | nil => exact h3
  | cons c cs ih => exact h4 c cs (hc c) ih

/-- True iff the event is a `Start`. -/
def isStart : XmlEvent → Bool
  | .startE _ _ => true
  | _ => false

/-- True iff the event is an `End`. -/
def isEnd : XmlEvent → Bool
  | .endE _ => true
  | _ => false

/-- Modelled from the spec: `ParseLimits` — `max_depth` and `max_events`,
absence meaning unbounded. -/
structure ParseLimits where
  maxDepth : Option Nat
  maxEvents : Option Nat
deriving DecidableEq, Repr

/-- The unbounded limits (both absent). -/
def unbounded : ParseLimits := ⟨none, none⟩

/-- Whether an event at element depth `d` survives a `max_depth` limit. -/
def keepAtDepth (d : Nat) : Option Nat → Bool
  | none => true
  | some limit => d ≤ limit

/-- Modelled from the spec: the `max_depth` part of the bounded event
iterator (§4.2). `d` is the depth of the element currently open (the root
sits at depth 1). Events of elements whose depth exceeds the limit are
suppressed, including the over-limit element's own `Start` and `End`,
while the scanner is still driven forward; yielding resumes once depth
returns to the limit or below. -/
def applyDepthFrom : List XmlEvent → Nat → Option Nat → List XmlEvent
  | [], _, _ => []
  | .startE n a :: es, d, maxD =>
    if keepAtDepth (d + 1) maxD then .startE n a :: applyDepthFrom es (d + 1) maxD
    else applyDepthFrom es (d + 1) maxD
  | .endE n :: es, d, maxD =>
    if keepAtDepth d maxD then .endE n :: applyDepthFrom es (d - 1) maxD
    else applyDepthFrom es (d - 1) maxD
  | .textE s :: es, d, maxD =>
    if keepAtDepth d maxD then .textE s :: applyDepthFrom es d maxD
    else applyDepthFrom es d maxD

/-- Modelled from the spec: the `max_events` part of the bounded event
iterator — iteration terminates cleanly after the Nth yielded event. -/
def truncateEvents : Option Nat → List XmlEvent → List XmlEvent
  | none, evs => evs
  | some n, evs => evs.take n

/-- Modelled from the spec: the bounded event iterator — a `max_depth`
filter followed by the `max_events` cut, both counted on yielded events. -/
def applyLimits (evs : List XmlEvent) (lims : ParseLimits) : List XmlEvent :=
  truncateEvents lims.maxEvents (applyDepthFrom evs 0 lims.maxDepth)

/-- Modelled from the spec: `EventRecord` stream — each yielded event is
paired with a sequence number that starts at 1 and counts only yielded
events. -/
def iterRecords (evs : List XmlEvent) (lims : ParseLimits) : List (Nat × XmlEvent) :=
  List.enumFrom 1 (applyLimits evs lims)

/-- The event-kind string of the public interface. -/
def eventKind : XmlEvent → String
  | .startE _ _ => "start"
  | .endE _ => "end"
  | .textE _ => "text"

/-- The value component of the public interface: the tag name for
`start`/`end`, the content for `text`. -/
def eventValue : XmlEvent → String
  | .startE n _ => n
  | .endE n => n
  | .textE s => s

/-- Modelled from the spec and the repository's callers: `iter_xml` yields
3-tuples `(count, event, value)` (the tests unpack
`for count, event, value in iter_xml(...)`). -/
def iter_xml (evs : List XmlEvent) (lims : ParseLimits) :
    List (Nat × String × String) :=
  (iterRecords evs lims).map fun p => (p.1, eventKind p.2, eventValue p.2)

theorem countP_flatten :
    (∀ c, ((flattenC c).countP isStart = elemCountC c ∧
           (flattenC c).countP isEnd = elemCountC c)) ∧
    (∀ cs, ((flattenL cs).countP isStart = elemCountL cs ∧
            (flattenL cs).countP isEnd = elemCountL cs)) := by
  refine contentInd _ _ ?_ ?_ ?_ ?_
  · intro s
    simp [flattenC, elemCountC, List.countP, List.countP.go, isStart, isEnd]
  · intro n a cs ih
    simp [flattenC, elemCountC, List.countP_cons, List.countP_append, ih.1, ih.2,
      isStart, isEnd, Nat.add_comm]
  · simp [flattenL, elemCountL]
  · intro c cs ihc ihcs
    simp [flattenL, elemCountL, List.countP_append, ihc.1, ihc.2, ihcs.1, ihcs.2]

theorem applyDepthFrom_none (evs : List XmlEvent) :
    ∀ d, applyDepthFrom evs d none = evs := by
  induction evs with
  | nil => intro d; rfl
  | cons e es ih => intro d; cases e <;> simp [applyDepthFrom, keepAtDepth, ih]

theorem applyLimits_unbounded (evs : List XmlEvent) :
    applyLimits evs unbounded = evs := by
  simp [applyLimits, unbounded, truncateEvents, applyDepthFrom_none]

theorem countP_enumFrom {α : Type} (f : α → Bool) (l : List α) :
    ∀ n, (List.enumFrom n l).countP (fun p => f p.2) = l.countP f := by
  induction l with
  | nil => intro n; rfl
  | cons x xs ih => intro n; simp [List.enumFrom, List.countP_cons, ih]

theorem countP_iter_xml (f : String → Bool) (evs : List XmlEvent) :
    (iter_xml evs unbounded).countP (fun r => f r.2.1) =
      evs.countP (fun e => f (eventKind e)) := by
  simp [iter_xml, iterRecords, applyLimits_unbounded, List.countP_map]
  exact countP_enumFrom (fun e => f (eventKind e)) evs 1

/-- The deeply nested document of the deep-nesting scenario: `n + 1`
elements, one per nesting level plus the innermost `content` element. -/
def nestDoc : Nat → Content
  | 0 => .elemC "content" [] [.textC "deep"]
  | n + 1 => .elemC "level" [] [nestDoc n]

theorem elemCountC_nestDoc : ∀ n, elemCountC (nestDoc n) = n + 1 := by
  intro n
  induction n with
  | zero => rfl
  | succ n ih => simp [nestDoc, elemCountC, elemCountL, ih]; omega

/-- C2: for every well-formed document, `iter_xml` with unbounded limits
yields exactly as many `start` records as `end` records, both equal to
the number of elements; instantiated at a 1001-element deeply nested
document. -/
theorem iter_xml_balance :
    (∀ c, ((iter_xml (flattenC c) unbounded).countP (fun r => r.2.1 == "start") = elemCountC c ∧
           (iter_xml (flattenC c) unbounded).countP (fun r => r.2.1 == "end") = elemCountC c)) ∧
    ((iter_xml (flattenC (nestDoc 1000)) unbounded).countP (fun r => r.2.1 == "start") = 1001 ∧
     (iter_xml (flattenC (nestDoc 1000)) unbounded).countP (fun r => r.2.1 == "end") = 1001) := by
  have hs : (fun e => eventKind e == "start") = isStart := by
    funext e; cases e <;> rfl
  have he : (fun e => eventKind e == "end") = isEnd := by
    funext e; cases e <;> rfl
  have main : ∀ c, ((iter_xml (flattenC c) unbounded).countP (fun r => r.2.1 == "start") = elemCountC c ∧
      (iter_xml (flattenC c) unbounded).countP (fun r => r.2.1 == "end") = elemCountC c) := by
    intro c
    have h1 := countP_iter_xml (fun s => s == "start") (flattenC c)
    have h2 := countP_iter_xml (fun s => s == "end") (flattenC c)
    rw [hs] at h1
    rw [he] at h2
    rw [h1, h2]
    exact (countP_flatten.1 c)
  refine ⟨main, ?_, ?_⟩
  · rw [(main (nestDoc 1000)).1, elemCountC_nestDoc]
  · rw [(main (nestDoc 1000)).2, elemCountC_nestDoc]

/-- The streaming-behavior scenario's document: 1000 repeated `<item>`
siblings (each holding its index as text) under one `<root>`. -/
def doc1000 : Content :=
  .elemC "root" [] ((List.range 1000).map fun i => .elemC "item" [] [.textC (toString i)])

theorem flattenL_items_length (l : List Nat) :
    (flattenL (l.map fun i => Content.elemC "item" [] [Content.textC (toString i)])).length =
      3 * l.length := by
  induction l with
  | nil => rfl
  | cons x xs ih =>
    simp [flattenL, flattenC, ih]
    omega

theorem flattenC_doc1000_length : (flattenC doc1000).length = 3002 := by
  simp [doc1000, flattenC, flattenL_items_length]

theorem iter_xml_length (evs : List XmlEvent) :
    (iter_xml evs unbounded).length = evs.length := by
  simp [iter_xml, iterRecords, applyLimits_unbounded, List.enumFrom_length]

theorem iter_xml_map_fst (evs : List XmlEvent) (lims : ParseLimits) :
    (iter_xml evs lims).map (fun r => r.1) = List.range' 1 (iter_xml evs lims).length := by
  simp [iter_xml, iterRecords, List.map_map, Function.comp_def, List.enumFrom_map_fst]

/-- C3: sequence numbers of `iter_xml` records start at 1 and increase by
exactly 1 per yielded record; consuming the 1000-item document and
breaking after 101 records observes exactly 101 records whose sequence
numbers are exactly 1, 2, ..., 101. -/
theorem iter_xml_sequence :
    (∀ evs lims, (iter_xml evs lims).map (fun r => r.1) =
        List.range' 1 (iter_xml evs lims).length) ∧
    (((iter_xml (flattenC doc1000) unbounded).take 101).length = 101 ∧
     ((iter_xml (flattenC doc1000) unbounded).take 101).map (fun r => r.1) =
        List.range' 1 101) := by
  refine ⟨iter_xml_map_fst, ?_, ?_⟩
  · rw [List.length_take, iter_xml_length, flattenC_doc1000_length]
    decide
  · rw [List.map_take, iter_xml_map_fst, iter_xml_length, flattenC_doc1000_length]
    rw [show (3002 : Nat) = 101 + 2901 by rfl, ← List.range'_append 1 101 2901 1]
    simp [List.take_append_of_le_length, List.length_range']

/-- The kind/value pair a record of the public interface carries for a
given event: `("start", tag)`, `("end", tag)` or `("text", content)`. -/
def recordShape : XmlEvent → String × String → Prop
  | .startE n _, kv => kv = ("start", n)
  | .endE n, kv => kv = ("end", n)
  | .textE s, kv => kv = ("text", s)

/-- C10: every record yielded by `iter_xml` is a 3-tuple
`(count, event, value)` (by the type of `iter_xml`) whose event string is
one of `"start"`, `"end"`, `"text"` and whose value is the tag name for
`start`/`end` and the content for `text`. -/
theorem iter_xml_record_shape (evs : List XmlEvent) (lims : ParseLimits)
    (r : Nat × String × String) (hr : r ∈ iter_xml evs lims) :
    (r.2.1 = "start" ∨ r.2.1 = "end" ∨ r.2.1 = "text") ∧
    ∃ e, e ∈ applyLimits evs lims ∧ recordShape e r.2 := by
  rcases List.mem_map.1 hr with ⟨p, hp, rfl⟩
  have hmem : p.2 ∈ applyLimits evs lims := by
    have : p.2 ∈ (List.enumFrom 1 (applyLimits evs lims)).map Prod.snd :=
      List.mem_map_of_mem Prod.snd hp
    rwa [List.enumFrom_map_snd] at this
  refine ⟨?_, p.2, hmem, ?_⟩
  · cases p.2 with
    | startE n a => left; rfl
    | endE n => right; left; rfl
    | textE s => right; right; rfl
  · cases p.2 with
    | startE n a => rfl
    | endE n => rfl
    | textE s => rfl

theorem iter_xml_record_shape_witness :
    ((("start" : String) = "start" ∨ ("start" : String) = "end" ∨
       ("start" : String) = "text") ∧
      ∃ e, e ∈ applyLimits [XmlEvent.startE "a" []] unbounded ∧
        recordShape e ("start", "a")) :=
  iter_xml_record_shape [XmlEvent.startE "a" []] unbounded (1, ("start", "a")) (by decide)

/-- Modelled from the spec: `EdgeCountTable` — a mapping from `PathKey`
(root-to-self tag sequence) to a count, kept as an association list in
first-occurrence order. -/
abbrev EdgeCountTable := List (List String × Nat)

/-- Increment the count of key `k` (an absent key starts at 1). -/
def bump : EdgeCountTable → List String → EdgeCountTable
  | [], k => [(k, 1)]
  | (k', c) :: rest, k =>
    if k' = k then (k', c + 1) :: rest else (k', c) :: bump rest k

/-- Sum of all counts in the table. -/
def tableTotal (t : EdgeCountTable) : Nat := (t.map Prod.snd).sum

/-- Modelled from the spec: the edge-count aggregator's event loop — on
every `Start` the ancestor stack plus the new tag forms the `PathKey`
whose count is bumped; `End` pops, `Text` is ignored; once `n_max`
`Start` events have been tallied, input is no longer consumed. The stack
is kept innermost-first. -/
def edgeCountsAux : List XmlEvent → List String → Option Nat → EdgeCountTable → EdgeCountTable
  | [], _, _, t => t
  | .startE n _ :: es, stack, nmax, t =>
    match nmax with
    | some 0 => t
    | some (m + 1) => edgeCountsAux es (n :: stack) (some m) (bump t (n :: stack).reverse)
    | none => edgeCountsAux es (n :: stack) none (bump t (n :: stack).reverse)
  | .endE _ :: es, stack, nmax, t => edgeCountsAux es stack.tail nmax t
  | .textE _ :: es, stack, nmax, t => edgeCountsAux es stack nmax t

/-- Modelled from the spec: `get_edge_counts` over an event stream with an
optional cap `n_max` on the number of `Start` events examined. -/
def get_edge_counts (evs : List XmlEvent) (n_max : Option Nat) : EdgeCountTable :=
  edgeCountsAux evs [] n_max []

theorem tableTotal_bump (t : EdgeCountTable) (k : List String) :
    tableTotal (bump t k) = tableTotal t + 1 := by
  induction t with
  | nil => rfl
  | cons p rest ih =>
    obtain ⟨k', c⟩ := p
    by_cases hk : k' = k <;> simp [bump, hk, tableTotal] at ih ⊢ <;> omega

theorem tableTotal_aux_none (evs : List XmlEvent) :
    ∀ stack t, tableTotal (edgeCountsAux evs stack none t) =
      tableTotal t + evs.countP isStart := by
  induction evs with
  | nil => intro stack t; simp [edgeCountsAux, List.countP_nil]
  | cons e es ih =>
    intro stack t
    cases e with
    | startE n a =>
      simp [edgeCountsAux, ih, tableTotal_bump, List.countP_cons, isStart]
      omega
    | endE n => simp [edgeCountsAux, ih, List.countP_cons, isStart]
    | textE s => simp [edgeCountsAux, ih, List.countP_cons, isStart]

theorem tableTotal_aux_some (evs : List XmlEvent) :
    ∀ m stack t, tableTotal (edgeCountsAux evs stack (some m) t) =
      tableTotal t + min m (evs.countP isStart) := by
  induction evs with
  | nil => intro m stack t; simp [edgeCountsAux, List.countP_nil]
  | cons e es ih =>
    intro m stack t
    cases e with
    | startE n a =>
      cases m with
      | zero => simp [edgeCountsAux, List.countP_cons, isStart]
      | succ m =>
        simp [edgeCountsAux, ih, tableTotal_bump, List.countP_cons, isStart,
          Nat.succ_min_succ]
        omega
    | endE n => simp [edgeCountsAux, ih, List.countP_cons, isStart]
    | textE s => simp [edgeCountsAux, ih, List.countP_cons, isStart]

/-- C4: the total of `get_edge_counts` is monotone in `n_max`, and with
`n_max` absent it equals the true number of elements in the document. -/
theorem get_edge_counts_total :
    (∀ evs n1 n2, n1 ≤ n2 →
      tableTotal (get_edge_counts evs (some n1)) ≤ tableTotal (get_edge_counts evs (some n2))) ∧
    (∀ c, tableTotal (get_edge_counts (flattenC c) none) = elemCountC c) := by
  constructor
  · intro evs n1 n2 h
    rw [get_edge_counts, get_edge_counts, tableTotal_aux_some, tableTotal_aux_some]
    exact Nat.add_le_add_left (min_le_min h le_rfl) _
  · intro c
    rw [get_edge_counts, tableTotal_aux_none]
    simp [tableTotal]
    exact (countP_flatten.1 c).1

theorem get_edge_counts_total_witness :
    tableTotal (get_edge_counts [XmlEvent.startE "a" [], XmlEvent.endE "a"] (some 0)) ≤
      tableTotal (get_edge_counts [XmlEvent.startE "a" [], XmlEvent.endE "a"] (some 1)) :=
  get_edge_counts_total.1 [XmlEvent.startE "a" [], XmlEvent.endE "a"] 0 1 (by decide)

mutual

/-- Path keys of one content item, by direct tree recursion: for an
element, the ancestor path extended by its own tag, followed by the keys
of its children; text contributes none. Ancestor paths are root-first. -/
def pathsC : List String → Content → List (List String)
  | _, .textC _ => []
  | anc, .elemC n _ cs => (anc ++ [n]) :: pathsL (anc ++ [n]) cs

/-- Path keys of a list of sibling content items, in document order. -/
def pathsL : List String → List Content → List (List String)
  | _, [] => []
  | anc, c :: cs => pathsC anc c ++ pathsL anc cs

end

/-- Bump every key of `ks` into `t`, in order. -/
def tallyInto (t : EdgeCountTable) (ks : List (List String)) : EdgeCountTable :=
  ks.foldl bump t

/-- The reference edge-count table, built by recursion over the document
tree rather than by the streaming event loop: one bump per element, keyed
by its root-to-self path, in document order. -/
def get_edge_counts_ref (c : Content) : EdgeCountTable :=
  tallyInto [] (pathsC [] c)

theorem tallyInto_append (t : EdgeCountTable) (ks1 ks2 : List (List String)) :
    tallyInto t (ks1 ++ ks2) = tallyInto (tallyInto t ks1) ks2 := by
  simp [tallyInto, List.foldl_append]

theorem edgeCountsAux_flatten :
    (∀ c, ∀ evs stack t, edgeCountsAux (flattenC c ++ evs) stack none t =
        edgeCountsAux evs stack none (tallyInto t (pathsC stack.reverse c))) ∧
    (∀ cs, ∀ evs stack t, edgeCountsAux (flattenL cs ++ evs) stack none t =
        edgeCountsAux evs stack none (tallyInto t (pathsL stack.reverse cs))) := by
  refine contentInd _ _ ?_ ?_ ?_ ?_
  · intro s evs stack t
    simp [flattenC, edgeCountsAux, pathsC, tallyInto]
  · intro n a cs ih evs stack t
    have hrev : (n :: stack).reverse = stack.reverse ++ [n] := by
      simp [List.reverse_cons]
    simp only [flattenC, List.cons_append, edgeCountsAux, List.append_eq,
      List.append_assoc, List.singleton_append, List.nil_append]
    rw [ih (XmlEvent.endE n :: evs) (n :: stack) (bump t (n :: stack).reverse)]
    simp only [edgeCountsAux, List.tail_cons, hrev, pathsC]
    rfl
  · intro evs stack t
    simp [flattenL, pathsL, tallyInto]
  · intro c cs ihc ihcs evs stack t
    rw [flattenL, List.append_assoc, ihc, pathsL, tallyInto_append, ihcs]

/-- C5: the streaming edge-count aggregator agrees, on every well-formed
document, with an independently defined tree-recursive reference counter;
in particular the table is a deterministic function of the document. -/
theorem get_edge_counts_refines :
    ∀ c, get_edge_counts (flattenC c) none = get_edge_counts_ref c := by
  intro c
  have h := edgeCountsAux_flatten.1 c [] [] []
  rw [List.append_nil] at h
  rw [get_edge_counts, h]
  rfl

/-- Leading and trailing whitespace removed from a character list. -/
def stripChars (l : List Char) : List Char :=
  ((l.dropWhile Char.isWhitespace).reverse.dropWhile Char.isWhitespace).reverse

/-- Modelled from the spec: the reducer's text trimming — the frame's
effective text is its buffer with leading/trailing whitespace stripped. -/
def stripStr (s : String) : String := String.mk (stripChars s.data)

/-- The nested value tree `xml_to_dict` materializes: null, a string, a
list of values, or an ordered mapping. -/
inductive DVal where
  | vNull
  | vStr (s : String)
  | vList (vs : List DVal)
  | vMap (entries : List (String × DVal))
deriving Repr

/-- Modelled from the spec: `ElementFrame` — the reducer's stack entry:
tag, attributes, accumulating text buffer, and the ordered children
mapping whose slots are scalars or lists (lazy promotion). -/
structure Frame where
  tag : String
  attrs : List (String × String)
  textBuf : String
  children : List (String × DVal)

/-- Attribute entries of a frame's value: each attribute name prefixed
with `@`, the value as a string. -/
def attrEntries (a : List (String × String)) : List (String × DVal) :=
  a.map fun p => ("@" ++ p.1, DVal.vStr p.2)

/-- Modelled from the spec: the value of a popped frame — null when there
are no attributes, children or text; the trimmed text alone when only
text is present; otherwise a mapping of the `@`-prefixed attributes, the
children, and a `#text` entry when the trimmed text is non-empty. -/
def frameValue (f : Frame) : DVal :=
  let t := stripStr f.textBuf
  if f.attrs.isEmpty && f.children.isEmpty then
    if t = "" then .vNull else .vStr t
  else
    .vMap (attrEntries f.attrs ++ f.children ++
      (if t = "" then [] else [("#text", DVal.vStr t)]))

/-- Modelled from the spec: merging a closed child's `(tag, value)` into
the parent's children — absent key sets a scalar, a scalar is promoted to
a two-element list on the second occurrence, a list is appended to. -/
def mergeChild : List (String × DVal) → String → DVal → List (String × DVal)
  | [], tag, v => [(tag, v)]
  | (t, old) :: rest, tag, v =>
    if t = tag then
      match old with
      | .vList vs => (t, .vList (vs ++ [v])) :: rest
      | _ => (t, .vList [old, v]) :: rest
    else (t, old) :: mergeChild rest tag v

/-- Close frame `f` into its parent frame. -/
def mergeInto (parent f : Frame) : Frame :=
  { parent with children := mergeChild parent.children f.tag (frameValue f) }

/-- Finalize the remaining stack at end of events (frames left open by
truncation are implicitly closed); the bottom frame is the sentinel and
its children mapping is the result. -/
def collapse : Frame → List Frame → DVal
  | f, [] => .vMap f.children
  | f, g :: gs => collapse (mergeInto g f) gs

/-- Modelled from the spec: the dict reducer's event loop over an explicit
frame stack — `Start` pushes, `Text` appends to the top buffer, `End`
pops and merges into the parent. -/
def reduceAux : List XmlEvent → Frame → List Frame → DVal
  | [], cur, rest => collapse cur rest
  | .startE n a :: evs, cur, rest => reduceAux evs ⟨n, a, "", []⟩ (cur :: rest)
  | .endE _ :: evs, cur, rest =>
    match rest with
    | [] => reduceAux evs cur []
    | g :: gs => reduceAux evs (mergeInto g cur) gs
  | .textE s :: evs, cur, rest =>
    reduceAux evs { cur with textBuf := cur.textBuf ++ s } rest

/-- The sentinel frame sitting below the document root. -/
def sentinelFrame : Frame := ⟨"", [], "", []⟩

/-- Reduce a complete event stream into the nested mapping (the root tag
becomes the single key of the sentinel's children mapping). -/
def reduceEvents (evs : List XmlEvent) : DVal := reduceAux evs sentinelFrame []

/-- The event-level `xml_to_dict`: the bounded event stream reduced. -/
def xml_to_dict_events (evs : List XmlEvent) (lims : ParseLimits) : DVal :=
  reduceEvents (applyLimits evs lims)

/-- Concatenation of the raw text runs directly under an element, in
document order. -/
def gatherText : List Content → String
  | [] => ""
  | .textC s :: cs => s ++ gatherText cs
  | .elemC _ _ _ :: cs => gatherText cs

mutual

/-- The reference XML-to-dict convention's value of one element, by
direct tree recursion: null for an empty leaf, the trimmed text for a
text-only element, otherwise a mapping of `@`-prefixed attributes, the
merged children and a `#text` entry when the trimmed text is non-empty. -/
def refValC : Content → DVal
  | .textC _ => .vNull
  | .elemC _ a cs =>
    let t := stripStr (gatherText cs)
    let ch := refChildrenAux cs []
    if a.isEmpty && ch.isEmpty then
      if t = "" then .vNull else .vStr t
    else
      .vMap ((a.map fun p => ("@" ++ p.1, DVal.vStr p.2)) ++ ch ++
        (if t = "" then [] else [("#text", DVal.vStr t)]))

/-- The reference convention's children mapping: child elements merged
into the accumulator in document order, scalar slots promoted to lists on
the second occurrence of a tag. -/
def refChildrenAux : List Content → List (String × DVal) → List (String × DVal)
  | [], acc => acc
  | .textC _ :: cs, acc => refChildrenAux cs acc
  | .elemC n a ccs :: cs, acc =>
    refChildrenAux cs (mergeChild acc n (refValC (.elemC n a ccs)))

end

/-- The reference XML-to-dict convention's output for a whole document: a
single-key mapping from the root tag to the root's value. -/
def xmltodict_ref : Content → DVal
  | .textC _ => .vNull
  | .elemC n a cs => .vMap [(n, refValC (.elemC n a cs))]

/-- One content item's effect on the frame currently being reduced. -/
def stepItem (f : Frame) : Content → Frame
  | .textC s => { f with textBuf := f.textBuf ++ s }
  | .elemC n a cs => { f with children := mergeChild f.children n (refValC (.elemC n a cs)) }

theorem foldl_stepItem (cs : List Content) : ∀ f : Frame,
    cs.foldl stepItem f =
      ⟨f.tag, f.attrs, f.textBuf ++ gatherText cs, refChildrenAux cs f.children⟩ := by
  induction cs with
  | nil =>
    intro f
    simp [gatherText, refChildrenAux, String.append_empty]
  | cons c cs ih =>
    intro f
    cases c with
    | textC s =>
      rw [List.foldl_cons]
      show (cs.foldl stepItem { f with textBuf := f.textBuf ++ s }) = _
      rw [ih]
      simp [gatherText, refChildrenAux, String.append_assoc]
    | elemC n a ccs =>
      rw [List.foldl_cons]
      show (cs.foldl stepItem
        { f with children := mergeChild f.children n (refValC (.elemC n a ccs)) }) = _
      rw [ih]
      simp [gatherText, refChildrenAux]

theorem frameValue_refValC (n : String) (a : List (String × String)) (cs : List Content) :
    frameValue ⟨n, a, "" ++ gatherText cs, refChildrenAux cs []⟩ =
      refValC (.elemC n a cs) := by
  rw [String.empty_append]
  simp [frameValue, refValC, attrEntries]

theorem reduceAux_flatten :
    (∀ c, ∀ evs cur rest, reduceAux (flattenC c ++ evs) cur rest =
        reduceAux evs (stepItem cur c) rest) ∧
    (∀ cs, ∀ evs cur rest, reduceAux (flattenL cs ++ evs) cur rest =
        reduceAux evs (cs.foldl stepItem cur) rest) := by
  refine contentInd _ _ ?_ ?_ ?_ ?_
  · intro s evs cur rest
    simp [flattenC, reduceAux, stepItem]
  · intro n a cs ih evs cur rest
    simp only [flattenC, List.cons_append, reduceAux, List.append_eq,
      List.append_assoc, List.singleton_append, List.nil_append]
    rw [ih (XmlEvent.endE n :: evs) ⟨n, a, "", []⟩ (cur :: rest)]
    simp only [reduceAux, foldl_stepItem, mergeInto, frameValue_refValC]
    rfl
  · intro evs cur rest
    simp [flattenL]
  · intro c cs ihc ihcs evs cur rest
    rw [flattenL, List.append_assoc, ihc, List.foldl_cons, ihcs]

theorem xml_to_dict_events_ref (n : String) (a : List (String × String)) (cs : List Content) :
    xml_to_dict_events (flattenC (.elemC n a cs)) unbounded = xmltodict_ref (.elemC n a cs) := by
  rw [xml_to_dict_events, applyLimits_unbounded, reduceEvents,
    show flattenC (.elemC n a cs) = flattenC (.elemC n a cs) ++ [] by simp,
    reduceAux_flatten.1]
  simp [reduceAux, collapse, stepItem, sentinelFrame, mergeChild, xmltodict_ref]

/-- Characters allowed in tag and attribute names. -/
def isNameChar (c : Char) : Bool :=
  c.isAlphanum || c = '_' || c = '-' || c = '.' || c = ':'

/-- The single-quote character. -/
def squote : Char := Char.ofNat 39

/-- Value of one hexadecimal digit. -/
def hexVal (c : Char) : Option Nat :=
  if c.isDigit then some (c.toNat - '0'.toNat)
  else if 'a' ≤ c ∧ c ≤ 'f' then some (c.toNat - 'a'.toNat + 10)
  else if 'A' ≤ c ∧ c ≤ 'F' then some (c.toNat - 'A'.toNat + 10)
  else none

/-- Accumulate the value of a digit string in the given base. -/
def digitsVal (base : Nat) : List Char → Nat → Option Nat
  | [], acc => some acc
  | c :: cs, acc =>
    match hexVal c with
    | some v => if v < base then digitsVal base cs (acc * base + v) else none
    | none => none

/-- Decode a numeric character reference body (the digits after `#` or
`#x`), rejecting empty digit strings and invalid code points. -/
def decodeNumRef (base : Nat) (ds : List Char) : Option Char :=
  match ds with
  | [] => none
  | _ =>
    match digitsVal base ds 0 with
    | none => none
    | some v =>
      if v < 0xd800 ∨ (0xdfff < v ∧ v < 0x110000) then some (Char.ofNat v) else none

/-- Modelled from the spec: entity decoding — the five predefined XML
entities and decimal/hexadecimal numeric character references; any other
entity body is rejected (a `MalformedInput`). -/
def decodeEntity (ent : List Char) : Option Char :=
  match ent with
  | ['a', 'm', 'p'] => some '&'
  | ['l', 't'] => some '<'
  | ['g', 't'] => some '>'
  | ['q', 'u', 'o', 't'] => some '"'
  | ['a', 'p', 'o', 's'] => some squote
  | '#' :: 'x' :: ds => decodeNumRef 16 ds
  | '#' :: ds => decodeNumRef 10 ds
  | _ => none

/-- The characters following the literal `encoding` in an XML
declaration, if present. -/
def afterEncodingKey : List Char → Option (List Char)
  | [] => none
  | 'e' :: rest =>
    match rest with
    | 'n' :: 'c' :: 'o' :: 'd' :: 'i' :: 'n' :: 'g' :: rest2 => some rest2
    | _ => afterEncodingKey rest
  | _ :: rest => afterEncodingKey rest

/-- Parse `= "value"` (single or double quoted, whitespace-insensitive)
after the `encoding` key. -/
def parseEncodingVal (l : List Char) : Option (List Char) :=
  match l.dropWhile Char.isWhitespace with
  | '=' :: r =>
    match r.dropWhile Char.isWhitespace with
    | '"' :: r2 => some (r2.takeWhile (fun c => c ≠ '"'))
    | q :: r2 => if q = squote then some (r2.takeWhile (fun c => c ≠ squote)) else none
    | [] => none
  | _ => none

/-- The declared encoding of an XML declaration body, if any. -/
def declEncoding (buf : List Char) : Option (List Char) :=
  match afterEncodingKey buf with
  | none => none
  | some rest => parseEncodingVal rest

/-- Modelled from the spec: the only decodable encoding is UTF-8 (the
default); any other declared encoding is `UnsupportedEncoding`. -/
def isSupportedEnc (l : List Char) : Bool :=
  l.map Char.toUpper = "UTF-8".data || l.map Char.toUpper = "UTF8".data

/-- Modelled from the spec: the lexical scanner's mode — what construct
the scanner is currently inside, with its accumulating buffers (buffers
are kept reversed; attribute lists are kept reversed too). -/
inductive ScanMode where
  | mText (buf : List Char)
  | mTextEnt (buf : List Char) (ent : List Char)
  | mTagOpen
  | mName (nm : List Char)
  | mAttrsWs (nm : String) (attrs : List (String × String))
  | mAttrName (nm : String) (attrs : List (String × String)) (an : List Char)
  | mAttrEq (nm : String) (attrs : List (String × String)) (an : String)
  | mAttrQ (nm : String) (attrs : List (String × String)) (an : String)
  | mAttrVal (nm : String) (attrs : List (String × String)) (an : String) (q : Char) (av : List Char)
  | mAttrValEnt (nm : String) (attrs : List (String × String)) (an : String) (q : Char) (av : List Char) (ent : List Char)
  | mSelfSlash (nm : String) (attrs : List (String × String))
  | mClose (nm : List Char)
  | mCloseWs (nm : String)
  | mDecl (buf : List Char) (sawQ : Bool)
deriving Repr

/-- The scanner's state: current mode, stack of open tag names
(innermost first), and the number of characters consumed so far. -/
structure SState where
  mode : ScanMode
  stack : List String
  pos : Nat

/-- The scanner's initial state. -/
def initState : SState := ⟨.mText [], [], 0⟩

/-- Close an end tag: the name must match the innermost open tag. -/
def closeTag (nm : String) (st : SState) (p : Nat) :
    Except ScanError (SState × List XmlEvent) :=
  match st.stack with
  | top :: rest =>
    if top = nm then .ok (⟨.mText [], rest, p⟩, [.endE nm])
    else .error (.malformedInput st.pos)
  | [] => .error (.malformedInput st.pos)

/-- Modelled from the spec: the lexical scanner, as a one-character step
function. Consumes exactly one character; returns the successor state and
the events completed by that character (two for a self-closing tag:
its `Start` immediately followed by its `End`), or a scan error. -/
def step (st : SState) (c : Char) : Except ScanError (SState × List XmlEvent) :=
  let p := st.pos + 1
  match st.mode with
  | .mText buf =>
    if c = '<' then
      .ok (⟨.mTagOpen, st.stack, p⟩,
        if buf.isEmpty then [] else [.textE (String.mk buf.reverse)])
    else if c = '&' then .ok (⟨.mTextEnt buf [], st.stack, p⟩, [])
    else .ok (⟨.mText (c :: buf), st.stack, p⟩, [])
  | .mTextEnt buf ent =>
    if c = ';' then
      match decodeEntity ent.reverse with
      | some d => .ok (⟨.mText (d :: buf), st.stack, p⟩, [])
      | none => .error (.malformedInput st.pos)
    else if c = '&' ∨ c = '<' then .error (.malformedInput st.pos)
    else .ok (⟨.mTextEnt buf (c :: ent), st.stack, p⟩, [])
  | .mTagOpen =>
    if c = '/' then .ok (⟨.mClose [], st.stack, p⟩, [])
    else if c = '?' then .ok (⟨.mDecl [] false, st.stack, p⟩, [])
    else if isNameChar c then .ok (⟨.mName [c], st.stack, p⟩, [])
    else .error (.malformedInput st.pos)
  | .mName nm =>
    if isNameChar c then .ok (⟨.mName (c :: nm), st.stack, p⟩, [])
    else if c = '>' then
      .ok (⟨.mText [], String.mk nm.reverse :: st.stack, p⟩,
        [.startE (String.mk nm.reverse) []])
    else if c = '/' then .ok (⟨.mSelfSlash (String.mk nm.reverse) [], st.stack, p⟩, [])
    else if c.isWhitespace then .ok (⟨.mAttrsWs (String.mk nm.reverse) [], st.stack, p⟩, [])
    else .error (.malformedInput st.pos)
  | .mAttrsWs nm attrs =>
    if c.isWhitespace then .ok (⟨.mAttrsWs nm attrs, st.stack, p⟩, [])
    else if c = '>' then .ok (⟨.mText [], nm :: st.stack, p⟩, [.startE nm attrs.reverse])
    else if c = '/' then .ok (⟨.mSelfSlash nm attrs, st.stack, p⟩, [])
    else if isNameChar c then .ok (⟨.mAttrName nm attrs [c], st.stack, p⟩, [])
    else .error (.malformedInput st.pos)
  | .mAttrName nm attrs an =>
    if isNameChar c then .ok (⟨.mAttrName nm attrs (c :: an), st.stack, p⟩, [])
    else if c = '=' then .ok (⟨.mAttrQ nm attrs (String.mk an.reverse), st.stack, p⟩, [])
    else if c.isWhitespace then .ok (⟨.mAttrEq nm attrs (String.mk an.reverse), st.stack, p⟩, [])
    else .error (.malformedInput st.pos)
  | .mAttrEq nm attrs an =>
    if c.isWhitespace then .ok (⟨.mAttrEq nm attrs an, st.stack, p⟩, [])
    else if c = '=' then .ok (⟨.mAttrQ nm attrs an, st.stack, p⟩, [])
    else .error (.malformedInput st.pos)
  | .mAttrQ nm attrs an =>
    if c.isWhitespace then .ok (⟨.mAttrQ nm attrs an, st.stack, p⟩, [])
    else if c = '"' ∨ c = squote then .ok (⟨.mAttrVal nm attrs an c [], st.stack, p⟩, [])
    else .error (.malformedInput st.pos)
  | .mAttrVal nm attrs an q av =>
    if c = q then
      if (attrs.map Prod.fst).contains an then .error (.malformedInput st.pos)
      else .ok (⟨.mAttrsWs nm ((an, String.mk av.reverse) :: attrs), st.stack, p⟩, [])
    else if c = '&' then .ok (⟨.mAttrValEnt nm attrs an q av [], st.stack, p⟩, [])
    else if c = '<' then .error (.malformedInput st.pos)
    else .ok (⟨.mAttrVal nm attrs an q (c :: av), st.stack, p⟩, [])
  | .mAttrValEnt nm attrs an q av ent =>
    if c = ';' then
      match decodeEntity ent.reverse with
      | some d => .ok (⟨.mAttrVal nm attrs an q (d :: av), st.stack, p⟩, [])
      | none => .error (.malformedInput st.pos)
    else if c = '&' ∨ c = '<' then .error (.malformedInput st.pos)
    else .ok (⟨.mAttrValEnt nm attrs an q av (c :: ent), st.stack, p⟩, [])
  | .mSelfSlash nm attrs =>
    if c = '>' then
      .ok (⟨.mText [], st.stack, p⟩, [.startE nm attrs.reverse, .endE nm])
    else .error (.malformedInput st.pos)
  | .mClose nm =>
    if isNameChar c then .ok (⟨.mClose (c :: nm), st.stack, p⟩, [])
    else if c = '>' then closeTag (String.mk nm.reverse) st p
    else if c.isWhitespace then .ok (⟨.mCloseWs (String.mk nm.reverse), st.stack, p⟩, [])
    else .error (.malformedInput st.pos)
  | .mCloseWs nm =>
    if c.isWhitespace then .ok (⟨.mCloseWs nm, st.stack, p⟩, [])
    else if c = '>' then closeTag nm st p
    else .error (.malformedInput st.pos)
  | .mDecl buf sawQ =>
    if sawQ && (c == '>') then
      match declEncoding buf.reverse with
      | some enc =>
        if isSupportedEnc enc then .ok (⟨.mText [], st.stack, p⟩, [])
        else .error (.unsupportedEncoding (String.mk enc))
      | none => .ok (⟨.mText [], st.stack, p⟩, [])
    else .ok (⟨.mDecl (c :: buf) (c == '?'), st.stack, p⟩, [])

/-- Modelled from the spec: end-of-input handling — a trailing text run
is emitted; a non-empty open-tag stack (unclosed tag at end of input) or
a mid-construct end of input is a `MalformedInput`. -/
def finishScan (st : SState) : Except ScanError (List XmlEvent) :=
  match st.mode with
  | .mText buf =>
    if st.stack.isEmpty then
      .ok (if buf.isEmpty then [] else [.textE (String.mk buf.reverse)])
    else .error (.malformedInput st.pos)
  | _ => .error (.malformedInput st.pos)

/-- Drive the scanner over the whole input: the events yielded before any
failure, and the failure if one occurred. Every well-formed event
preceding the failure point is in the first component. -/
def scanFrom : List Char → SState → List XmlEvent × Option ScanError
  | [], st =>
    match finishScan st with
    | .ok evs => (evs, none)
    | .error e => ([], some e)
  | c :: cs, st =>
    match step st c with
    | .error e => ([], some e)
    | .ok (st', evs) =>
      let r := scanFrom cs st'
      (evs ++ r.1, r.2)

/-- Scan a whole document string from the initial state. -/
def scanAll (s : String) : List XmlEvent × Option ScanError :=
  scanFrom s.data initState

/-- Pull at most `k` events from the scanner, stopping as soon as `k`
events have been collected (the consumer breaks out of the loop): the
events, the number of characters consumed, and the error if one was hit
before `k` events were available. Once `k` events are collected no
further input is consumed. -/
def pullFrom : List Char → SState → Nat → List XmlEvent × Nat × Option ScanError
  | _, _, 0 => ([], 0, none)
  | [], st, k + 1 =>
    match finishScan st with
    | .ok evs => (evs.take (k + 1), 0, none)
    | .error e => ([], 0, some e)
  | c :: cs, st, k + 1 =>
    match step st c with
    | .error e => ([], 1, some e)
    | .ok (st', evs) =>
      let r := pullFrom cs st' (k + 1 - evs.length)
      (evs ++ r.1, r.2.1 + 1, r.2.2)

/-- Modelled from the spec: the bounded iterator over a scanned stream —
the `max_depth` filter applies first; the scan error surfaces only if the
iteration actually exhausts the scanner's events (with `max_events` set,
the consumer stops pulling after the Nth yielded event and never observes
an error lying beyond it). -/
def boundedPull (scanned : List XmlEvent × Option ScanError)
    (maxD maxE : Option Nat) : Except ScanError (List XmlEvent) :=
  let filtered := applyDepthFrom scanned.1 0 maxD
  match maxE, scanned.2 with
  | some n, some e => if n ≤ filtered.length then .ok (filtered.take n) else .error e
  | some n, none => .ok (filtered.take n)
  | none, some e => .error e
  | none, none => .ok filtered

/-- Modelled from the spec: `xml_to_dict` over a document string — scan,
apply the protection limits, and reduce; a scanner failure reached by the
iteration is propagated and no partial mapping is returned. -/
def xml_to_dict (s : String) (max_depth max_events : Option Nat) :
    Except ScanError DVal :=
  match boundedPull (scanAll s) max_depth max_events with
  | .error e => .error e
  | .ok evs => .ok (reduceEvents evs)

/-- C1: for every well-formed document, `xml_to_dict` under unbounded
limits is structurally identical to the reference XML-to-dict
convention's output (attribute prefixing with `@`, text under `#text`,
scalar-to-list promotion on second occurrence, empty leaf to null); in
particular `<root><item>1</item><item>2</item></root>` yields
`{root: {item: [1, 2]}}`. -/
theorem xml_to_dict_convention :
    (∀ n a cs, xml_to_dict_events (flattenC (.elemC n a cs)) unbounded =
        xmltodict_ref (.elemC n a cs)) ∧
    xml_to_dict "<root><item>1</item><item>2</item></root>" none none =
      .ok (.vMap [("root", .vMap [("item", .vList [.vStr "1", .vStr "2"])])]) :=
  ⟨xml_to_dict_events_ref, rfl⟩

theorem pullFrom_consumed_le (cs : List Char) :
    ∀ st k, (pullFrom cs st k).2.1 ≤ cs.length := by
  induction cs with
  | nil =>
    intro st k
    cases k with
    | zero => simp [pullFrom]
    | succ k =>
      simp only [pullFrom]
      cases finishScan st <;> simp
  | cons c cs ih =>
    intro st k
    cases k with
    | zero => simp [pullFrom]
    | succ k =>
      simp only [pullFrom]
      cases step st c with
      | error e => simp
      | ok p =>
        simp only [List.length_cons]
        exact Nat.succ_le_succ (ih p.1 (k + 1 - p.2.length))

theorem pullFrom_tail_independent (s1 : List Char) :
    ∀ (s2 : List Char) st k evs n,
      pullFrom s1 st k = (evs, n, none) → n < s1.length →
      pullFrom (s1 ++ s2) st k = (evs, n, none) := by
  induction s1 with
  | nil =>
    intro s2 st k evs n h hlt
    simp at hlt
  | cons c cs ih =>
    intro s2 st k evs n h hlt
    cases k with
    | zero =>
      simp only [pullFrom] at h
      simp only [List.cons_append, pullFrom]
      exact h
    | succ k =>
      rw [List.cons_append]
      cases hs : step st c with
      | error e =>
        rw [pullFrom, hs] at h
        simp at h
      | ok p =>
        obtain ⟨st', evs0⟩ := p
        rw [pullFrom, hs] at h
        simp only at h
        have he := congrArg Prod.fst h
        have hn := congrArg (fun x : List XmlEvent × Nat × Option ScanError => x.2.1) h
        have herr := congrArg (fun x : List XmlEvent × Nat × Option ScanError => x.2.2) h
        simp only at he hn herr
        have hlt' : (pullFrom cs st' (k + 1 - evs0.length)).2.1 < cs.length := by
          rw [List.length_cons] at hlt
          omega
        have hrec : pullFrom cs st' (k + 1 - evs0.length) =
            ((pullFrom cs st' (k + 1 - evs0.length)).1,
             (pullFrom cs st' (k + 1 - evs0.length)).2.1,
             (pullFrom cs st' (k + 1 - evs0.length)).2.2) := rfl
        rw [herr] at hrec
        have hind := ih s2 st' (k + 1 - evs0.length)
          (pullFrom cs st' (k + 1 - evs0.length)).1
          (pullFrom cs st' (k + 1 - evs0.length)).2.1 hrec hlt'
        rw [pullFrom, hs]
        simp only [hind]
        rw [he, hn]

/-- C7: the scanner's consumption is bounded by the input (the pull loop
cannot run forever), and on the malformed inputs of the test suite —
an unclosed tag at end of input and a mismatched end tag — it yields
exactly the well-formed events preceding the failure point and then fails,
as an error value rather than a crash. -/
theorem scanner_malformed_prefix :
    (∀ cs st k, (pullFrom cs st k).2.1 ≤ cs.length) ∧
    ((scanAll "<?xml version=\"1.0\"?><root><unclosed>").1 =
        [.startE "root" [], .startE "unclosed" []] ∧
     (scanAll "<?xml version=\"1.0\"?><root><unclosed>").2 =
        some (.malformedInput 37)) ∧
    ((scanAll "<?xml version=\"1.0\"?><root><item>text</wrong></root>").1 =
        [.startE "root" [], .startE "item" [], .textE "text"] ∧
     (scanAll "<?xml version=\"1.0\"?><root><item>text</wrong></root>").2 =
        some (.malformedInput 44)) :=
  ⟨fun cs st k => pullFrom_consumed_le cs st k, ⟨rfl, rfl⟩, ⟨rfl, rfl⟩⟩

/-- C8: `xml_to_dict` is all-or-nothing — a scan failure reached by the
iteration is propagated and no mapping is returned, while `max_events`
truncation that stops the iteration before the failure point is not an
error and still yields a mapping. -/
theorem xml_to_dict_all_or_nothing :
    (∀ s e, (scanAll s).2 = some e → xml_to_dict s none none = .error e) ∧
    (∀ s maxD n, n ≤ (applyDepthFrom (scanAll s).1 0 maxD).length →
      ∃ d, xml_to_dict s maxD (some n) = .ok d) := by
  constructor
  · intro s e h
    simp [xml_to_dict, boundedPull, h]
  · intro s maxD n h
    cases h2 : (scanAll s).2 with
    | none =>
      exact ⟨reduceEvents ((applyDepthFrom (scanAll s).1 0 maxD).take n),
        by simp [xml_to_dict, boundedPull, h2]⟩
    | some e =>
      exact ⟨reduceEvents ((applyDepthFrom (scanAll s).1 0 maxD).take n),
        by simp [xml_to_dict, boundedPull, h2, h]⟩

theorem xml_to_dict_all_or_nothing_witness :
    xml_to_dict "<a><b>" none none = .error (.malformedInput 6) ∧
    ∃ d, xml_to_dict "<a><b>" none (some 1) = .ok d :=
  ⟨xml_to_dict_all_or_nothing.1 "<a><b>" (.malformedInput 6) rfl,
   xml_to_dict_all_or_nothing.2 "<a><b>" none 1 (by decide)⟩

/-- C9 (amended): the cost of pulling the first `k` events — measured as
characters consumed — is determined by the consumed prefix alone: if the
pull stopped before exhausting the input, extending the document changes
neither the events pulled nor the cost. -/
theorem iter_early_termination_cost (s1 s2 : List Char) (st : SState) (k : Nat)
    (evs : List XmlEvent) (n : Nat)
    (h : pullFrom s1 st k = (evs, n, none)) (hlt : n < s1.length) :
    pullFrom (s1 ++ s2) st k = (evs, n, none) :=
  pullFrom_tail_independent s1 s2 st k evs n h hlt

theorem iter_early_termination_cost_witness :
    pullFrom ("<a>x</a>".data ++ "<b></b>".data) initState 2 =
      ([.startE "a" [], .textE "x"], 5, none) :=
  iter_early_termination_cost "<a>x</a>".data "<b></b>".data initState 2
    [.startE "a" [], .textE "x"] 5 rfl (by decide)

/-- C9 counterexample: with cost measured as characters consumed, pulling
the first 2 events costs 5 on an 8-character document but 36 on a
39-character document differing only in the length of one text node — the
cost of `K` events is not independent of the document's size. -/
theorem pullFrom_cost_not_size_independent :
    (pullFrom "<a>x</a>".data initState 2).2.1 = 5 ∧
    (pullFrom "<a>xxxxxxxxxxxxxxxxxxxxxxxxxxxxxxxx</a>".data initState 2).2.1 = 36 ∧
    ((pullFrom "<a>x</a>".data initState 2).1).length = 2 ∧
    ((pullFrom "<a>xxxxxxxxxxxxxxxxxxxxxxxxxxxxxxxx</a>".data initState 2).1).length = 2 ∧
    (5 : Nat) ≠ 36 :=
  ⟨rfl, rfl, rfl, rfl, by decide⟩

mutual

/-- Prune a content item to `b` remaining levels of element nesting:
text survives, an element survives only if a level is available, its
children pruned with one level fewer. -/
def pruneC : Nat → Content → List Content
  | _, .textC s => [.textC s]
  | 0, .elemC _ _ _ => []
  | b + 1, .elemC n a cs => [.elemC n a (pruneL b cs)]

/-- Prune a list of sibling content items to `b` remaining levels. -/
def pruneL : Nat → List Content → List Content
  | _, [] => []
  | b, c :: cs => pruneC b c ++ pruneL b cs

end

theorem flattenL_append (l1 l2 : List Content) :
    flattenL (l1 ++ l2) = flattenL l1 ++ flattenL l2 := by
  induction l1 with
  | nil => simp [flattenL]
  | cons c cs ih => simp [flattenL, ih]

theorem applyDepthFrom_suppressed :
    (∀ c, ∀ (D d : Nat) (evs : List XmlEvent), D < d →
      applyDepthFrom (flattenC c ++ evs) d (some D) =
        applyDepthFrom evs d (some D)) ∧
    (∀ cs, ∀ (D d : Nat) (evs : List XmlEvent), D < d →
      applyDepthFrom (flattenL cs ++ evs) d (some D) =
        applyDepthFrom evs d (some D)) := by
  refine contentInd _ _ ?_ ?_ ?_ ?_
  · intro s D d evs h
    have hk : keepAtDepth d (some D) = false := by
      simp [keepAtDepth]; omega
    simp [flattenC, applyDepthFrom, hk]
  · intro n a cs ih D d evs h
    have hk : keepAtDepth (d + 1) (some D) = false := by
      simp [keepAtDepth]; omega
    simp only [flattenC, List.cons_append, applyDepthFrom, hk, Bool.false_eq_true,
      if_false, List.append_eq, List.append_assoc, List.singleton_append,
      List.nil_append]
    rw [ih D (d + 1) (XmlEvent.endE n :: evs) (by omega)]
    simp [applyDepthFrom, hk]
  · intro D d evs h
    simp [flattenL]
  · intro c cs ihc ihcs D d evs h
    rw [flattenL, List.append_assoc, ihc D d _ h, ihcs D d _ h]

theorem applyDepthFrom_prune :
    (∀ c, ∀ (D d : Nat) (evs : List XmlEvent), d ≤ D →
      applyDepthFrom (flattenC c ++ evs) d (some D) =
        flattenL (pruneC (D - d) c) ++ applyDepthFrom evs d (some D)) ∧
    (∀ cs, ∀ (D d : Nat) (evs : List XmlEvent), d ≤ D →
      applyDepthFrom (flattenL cs ++ evs) d (some D) =
        flattenL (pruneL (D - d) cs) ++ applyDepthFrom evs d (some D)) := by
  have hprC_text : ∀ (b : Nat) (s : String), pruneC b (.textC s) = [.textC s] := by
    intro b s
    cases b <;> simp [pruneC]
  refine contentInd _ _ ?_ ?_ ?_ ?_
  · intro s D d evs h
    have hk : keepAtDepth d (some D) = true := by
      simp only [keepAtDepth, decide_eq_true_eq]
      omega
    rw [hprC_text]
    simp only [flattenC, flattenL, List.singleton_append, List.append_nil,
      applyDepthFrom, hk, if_true, List.append_eq, List.nil_append, List.cons_append]
  · intro n a cs ih D d evs h
    have hfl : flattenC (Content.elemC n a cs) ++ evs =
        XmlEvent.startE n a :: (flattenL cs ++ (XmlEvent.endE n :: evs)) := by
      simp [flattenC]
    by_cases hd : d = D
    · subst hd
      have hk : keepAtDepth (d + 1) (some d) = false := by
        simp [keepAtDepth]
      rw [Nat.sub_self, show pruneC 0 (Content.elemC n a cs) = [] by simp [pruneC],
        show flattenL ([] : List Content) = [] by simp [flattenL], List.nil_append, hfl]
      rw [show applyDepthFrom
            (XmlEvent.startE n a :: (flattenL cs ++ (XmlEvent.endE n :: evs))) d (some d) =
          applyDepthFrom (flattenL cs ++ (XmlEvent.endE n :: evs)) (d + 1) (some d) by
        simp [applyDepthFrom, hk]]
      rw [applyDepthFrom_suppressed.2 cs d (d + 1) (XmlEvent.endE n :: evs) (by omega)]
      simp [applyDepthFrom, hk]
    · have hk : keepAtDepth (d + 1) (some D) = true := by
        simp only [keepAtDepth, decide_eq_true_eq]
        omega
      have hb : D - d = (D - (d + 1)) + 1 := by omega
      rw [hfl]
      rw [show applyDepthFrom
            (XmlEvent.startE n a :: (flattenL cs ++ (XmlEvent.endE n :: evs))) d (some D) =
          XmlEvent.startE n a ::
            applyDepthFrom (flattenL cs ++ (XmlEvent.endE n :: evs)) (d + 1) (some D) by
        simp [applyDepthFrom, hk]]
      rw [ih D (d + 1) (XmlEvent.endE n :: evs) (by omega)]
      rw [show applyDepthFrom (XmlEvent.endE n :: evs) (d + 1) (some D) =
          XmlEvent.endE n :: applyDepthFrom evs d (some D) by
        simp [applyDepthFrom, hk]]
      rw [hb, show pruneC ((D - (d + 1)) + 1) (Content.elemC n a cs) =
          [Content.elemC n a (pruneL (D - (d + 1)) cs)] by simp [pruneC]]
      simp [flattenL, flattenC, flattenL_append]
  · intro D d evs h
    simp [flattenL, pruneL]
  · intro c cs ihc ihcs D d evs h
    rw [flattenL, List.append_assoc, ihc D d _ h, ihcs D d _ h]
    simp [pruneL, flattenL_append, List.append_assoc]

/-- The depth filter on a whole document's stream is the stream of the
pruned document. -/
theorem applyDepthFrom_prune_top (c : Content) (D : Nat) :
    applyDepthFrom (flattenC c) 0 (some D) = flattenL (pruneC D c) := by
  have h := applyDepthFrom_prune.1 c D 0 [] (by omega)
  simpa [applyDepthFrom] using h

mutual

/-- Element-nesting depth of a content item (text is depth 0). -/
def treeDepthC : Content → Nat
  | .textC _ => 0
  | .elemC _ _ cs => 1 + treeDepthL cs

/-- Maximum element-nesting depth of sibling content items. -/
def treeDepthL : List Content → Nat
  | [] => 0
  | c :: cs => max (treeDepthC c) (treeDepthL cs)

end

/-- Whether a mapping key is a metadata key (`@`-prefixed attribute or
`#text`) rather than an element key. -/
def isMetaKey (k : String) : Bool :=
  (match k.data with
   | '@' :: _ => true
   | _ => false) || k == "#text"

mutual

/-- Depth of the deepest element key in a value (metadata keys do not
add depth; lists do not add depth). -/
def keyDepth : DVal → Nat
  | .vNull => 0
  | .vStr _ => 0
  | .vList vs => keyDepthL vs
  | .vMap es => keyDepthEs es

/-- Deepest element key over a list of values. -/
def keyDepthL : List DVal → Nat
  | [] => 0
  | v :: vs => max (keyDepth v) (keyDepthL vs)

/-- Deepest element key over mapping entries. -/
def keyDepthEs : List (String × DVal) → Nat
  | [] => 0
  | (k, v) :: es =>
    max ((if isMetaKey k then 0 else 1) + keyDepth v) (keyDepthEs es)

end

theorem treeDepthL_append (l1 l2 : List Content) :
    treeDepthL (l1 ++ l2) = max (treeDepthL l1) (treeDepthL l2) := by
  induction l1 with
  | nil => simp [treeDepthL]
  | cons c cs ih => simp [treeDepthL, ih, Nat.max_assoc]

theorem prune_treeDepth_le :
    (∀ c, ∀ b, treeDepthL (pruneC b c) ≤ b) ∧
    (∀ cs, ∀ b, treeDepthL (pruneL b cs) ≤ b) := by
  refine contentInd _ _ ?_ ?_ ?_ ?_
  · intro s b
    simp [pruneC.eq_1, treeDepthL, treeDepthC]
  · intro n a cs ih b
    cases b with
    | zero => simp [pruneC, treeDepthL]
    | succ b =>
      have := ih b
      simp [pruneC, treeDepthL, treeDepthC]
      omega
  · intro b
    simp [pruneL, treeDepthL]
  · intro c cs ihc ihcs b
    have h1 := ihc b
    have h2 := ihcs b
    simp [pruneL, treeDepthL_append]
    omega

theorem keyDepthL_append_single (vs : List DVal) (v : DVal) :
    keyDepthL (vs ++ [v]) = max (keyDepthL vs) (keyDepth v) := by
  induction vs with
  | nil => simp [keyDepthL]
  | cons w ws ih => simp [keyDepthL, ih]; omega

theorem keyDepthEs_append (l1 l2 : List (String × DVal)) :
    keyDepthEs (l1 ++ l2) = max (keyDepthEs l1) (keyDepthEs l2) := by
  induction l1 with
  | nil => simp [keyDepthEs]
  | cons e es ih =>
    obtain ⟨k, v⟩ := e
    simp [keyDepthEs, ih, Nat.max_assoc]

theorem string_at_data (k : String) : ("@" ++ k).data = '@' :: k.data := by
  cases k
  rfl

theorem keyDepthEs_attrMap (a : List (String × String)) :
    keyDepthEs (a.map fun p => ("@" ++ p.1, DVal.vStr p.2)) = 0 := by
  induction a with
  | nil => rfl
  | cons p ps ih =>
    have hm : isMetaKey ("@" ++ p.1) = true := by
      simp [isMetaKey, string_at_data]
    simp [keyDepthEs, ih, hm, keyDepth]

theorem keyDepthEs_mergeChild (es : List (String × DVal)) (k : String) (v : DVal) :
    keyDepthEs (mergeChild es k v) ≤ max (keyDepthEs es) (1 + keyDepth v) := by
  induction es with
  | nil =>
    simp [mergeChild, keyDepthEs]
    cases h : isMetaKey k <;> simp
  | cons e es ih =>
    obtain ⟨t, old⟩ := e
    by_cases ht : t = k
    · subst ht
      cases old with
      | vList vs =>
        simp [mergeChild, keyDepthEs, keyDepth, keyDepthL_append_single]
        cases h : isMetaKey t <;> simp <;> omega
      | vNull =>
        simp [mergeChild, keyDepthEs, keyDepth, keyDepthL]
        cases h : isMetaKey t <;> simp <;> omega
      | vStr s =>
        simp [mergeChild, keyDepthEs, keyDepth, keyDepthL]
        cases h : isMetaKey t <;> simp <;> omega
      | vMap mes =>
        simp [mergeChild, keyDepthEs, keyDepth, keyDepthL]
        cases h : isMetaKey t <;> simp <;> omega
    · simp only [mergeChild, if_neg ht, keyDepthEs]
      have := ih
      omega

theorem refValC_keyDepth_le :
    (∀ c, keyDepth (refValC c) + 1 ≤ max 1 (treeDepthC c)) ∧
    (∀ cs, ∀ acc, keyDepthEs (refChildrenAux cs acc) ≤
        max (treeDepthL cs) (keyDepthEs acc)) := by
  refine contentInd _ _ ?_ ?_ ?_ ?_
  · intro s
    simp [refValC, keyDepth]
  · intro n a cs ih
    rw [refValC]
    split
    · split
      · simp [keyDepth]
      · simp [keyDepth]
    · simp only [keyDepth, keyDepthEs_append, keyDepthEs_attrMap]
      have h1 := ih []
      have h2 : keyDepthEs
          (if stripStr (gatherText cs) = "" then []
           else [("#text", DVal.vStr (stripStr (gatherText cs)))]) = 0 := by
        split
        · rfl
        · simp [keyDepthEs, isMetaKey, keyDepth]
      rw [h2]
      simp only [keyDepthEs] at h1
      simp [treeDepthC]
      omega
  · intro acc
    simp [refChildrenAux, treeDepthL]
  · intro c cs ihc ihcs acc
    cases c with
    | textC s =>
      rw [refChildrenAux]
      have := ihcs acc
      simp [treeDepthL, treeDepthC]
      omega
    | elemC n a ccs =>
      rw [refChildrenAux]
      have h1 := ihcs (mergeChild acc n (refValC (.elemC n a ccs)))
      have h2 := keyDepthEs_mergeChild acc n (refValC (.elemC n a ccs))
      have h3 := ihc
      rw [show treeDepthL (Content.elemC n a ccs :: cs) =
          max (treeDepthC (Content.elemC n a ccs)) (treeDepthL cs) by
        simp [treeDepthL]]
      rw [show treeDepthC (Content.elemC n a ccs) = 1 + treeDepthL ccs by
        simp [treeDepthC]]
      rw [show treeDepthC (Content.elemC n a ccs) = 1 + treeDepthL ccs by
        simp [treeDepthC]] at h3
      omega

/-- Reducing the event stream of a forest of sibling items yields the
mapping of the reference children of that forest. -/
theorem reduceEvents_forest (cs : List Content) :
    reduceEvents (flattenL cs) = .vMap (refChildrenAux cs []) := by
  rw [reduceEvents, show flattenL cs = flattenL cs ++ [] by simp,
    reduceAux_flatten.2, foldl_stepItem]
  rfl

/-- The element keys of `xml_to_dict` under `max_depth = D` never lie
deeper than `D`. -/
theorem keyDepth_xml_to_dict_le (n : String) (a : List (String × String))
    (cs : List Content) (D : Nat) :
    keyDepth (xml_to_dict_events (flattenC (.elemC n a cs)) ⟨some D, none⟩) ≤ D := by
  rw [xml_to_dict_events, applyLimits]
  simp only [truncateEvents]
  rw [applyDepthFrom_prune_top, reduceEvents_forest]
  have h1 := refValC_keyDepth_le.2 (pruneC D (.elemC n a cs)) []
  have h2 := prune_treeDepth_le.1 (.elemC n a cs) D
  simp only [keyDepth, keyDepthEs] at h1 ⊢
  omega

/-- The shape `max_depth` pruning leaves of a deeply nested document:
`b + 1` nested `level` elements, the innermost emptied. -/
def truncNest : Nat → Content
  | 0 => .elemC "level" [] []
  | b + 1 => .elemC "level" [] [truncNest b]

theorem pruneC_zero_nestDoc (k : Nat) : pruneC 0 (nestDoc k) = [] := by
  cases k <;> simp [nestDoc, pruneC]

theorem prune_nest : ∀ b k, b < k → pruneC (b + 1) (nestDoc k) = [truncNest b] := by
  intro b
  induction b with
  | zero =>
    intro k hk
    cases k with
    | zero => omega
    | succ k =>
      simp [nestDoc, pruneC, pruneL, truncNest, pruneC_zero_nestDoc]
  | succ b ih =>
    intro k hk
    cases k with
    | zero => omega
    | succ k =>
      simp only [nestDoc, pruneC, pruneL]
      rw [ih k (by omega)]
      simp [truncNest]

mutual

/-- Total number of value nodes in a `DVal`. -/
def dvalSize : DVal → Nat
  | .vNull => 1
  | .vStr _ => 1
  | .vList vs => 1 + dvalSizeL vs
  | .vMap es => 1 + dvalSizeEs es

/-- Total size of a list of values. -/
def dvalSizeL : List DVal → Nat
  | [] => 0
  | v :: vs => dvalSize v + dvalSizeL vs

/-- Total size of the values of mapping entries. -/
def dvalSizeEs : List (String × DVal) → Nat
  | [] => 0
  | (_, v) :: es => dvalSize v + dvalSizeEs es

end

theorem size_ref_trunc : ∀ b, dvalSize (refValC (truncNest b)) = b + 1 := by
  intro b
  induction b with
  | zero =>
    simp [truncNest, refValC, gatherText, refChildrenAux]
    rfl
  | succ b ih =>
    have hgt : gatherText [truncNest b] = "" := by
      cases b <;> simp [truncNest, gatherText]
    have hch : refChildrenAux [truncNest b] [] = [("level", refValC (truncNest b))] := by
      cases b <;> simp [truncNest, refChildrenAux, mergeChild]
    rw [show truncNest (b + 1) = .elemC "level" [] [truncNest b] by simp [truncNest]]
    rw [refValC, hgt, hch]
    simp [dvalSize, dvalSizeEs, ih]
    omega

theorem size_ref_nest : ∀ m, dvalSize (refValC (nestDoc m)) = m + 1 := by
  intro m
  induction m with
  | zero =>
    rw [show nestDoc 0 = .elemC "content" [] [.textC "deep"] by simp [nestDoc]]
    rw [refValC]
    simp [gatherText, refChildrenAux]
    rw [show stripStr "deep" = "deep" from rfl]
    rw [if_neg (by decide : ¬("deep" : String) = "")]
    simp [dvalSize]
  | succ m ih =>
    have hgt : gatherText [nestDoc m] = "" := by
      cases m <;> simp [nestDoc, gatherText]
    have hch : ∃ nm, refChildrenAux [nestDoc m] [] = [(nm, refValC (nestDoc m))] := by
      cases m with
      | zero => exact ⟨"content", by simp [nestDoc, refChildrenAux, mergeChild]⟩
      | succ m => exact ⟨"level", by simp [nestDoc, refChildrenAux, mergeChild]⟩
    obtain ⟨nm, hch⟩ := hch
    rw [show nestDoc (m + 1) = .elemC "level" [] [nestDoc m] by simp [nestDoc]]
    rw [refValC, hgt, hch]
    simp [dvalSize, dvalSizeEs, ih]
    omega

/-- C6: `max_depth` truncation yields the event stream of a pruned
document (hence never an unbalanced stream), the resulting dict has no
element keys nested deeper than `D`, and the depth-50 nested document
parsed with `max_depth = 10` produces a strictly smaller dict than its
unbounded parse. -/
theorem max_depth_truncation :
    (∀ c D, applyDepthFrom (flattenC c) 0 (some D) = flattenL (pruneC D c)) ∧
    (∀ n a cs D,
      keyDepth (xml_to_dict_events (flattenC (.elemC n a cs)) ⟨some D, none⟩) ≤ D) ∧
    dvalSize (xml_to_dict_events (flattenC (nestDoc 50)) ⟨some 10, none⟩) <
      dvalSize (xml_to_dict_events (flattenC (nestDoc 50)) unbounded) := by
  refine ⟨applyDepthFrom_prune_top, keyDepth_xml_to_dict_le, ?_⟩
  have hlim : xml_to_dict_events (flattenC (nestDoc 50)) ⟨some 10, none⟩ =
      .vMap [("level", refValC (truncNest 9))] := by
    rw [xml_to_dict_events, applyLimits]
    simp only [truncateEvents]
    rw [applyDepthFrom_prune_top, show (10 : Nat) = 9 + 1 by rfl,
      prune_nest 9 50 (by omega), reduceEvents_forest]
    rw [show refChildrenAux [truncNest 9] [] = [("level", refValC (truncNest 9))] by
      simp [truncNest, refChildrenAux, mergeChild]]
  have h50 : nestDoc 50 = Content.elemC "level" [] [nestDoc 49] := by simp [nestDoc]
  have hfull : xml_to_dict_events (flattenC (nestDoc 50)) unbounded =
      .vMap [("level", refValC (nestDoc 50))] := by
    rw [h50, xml_to_dict_events_ref]
    simp [xmltodict_ref]
  have hm : ∀ (k : String) (v : DVal), dvalSize (.vMap [(k, v)]) = 1 + dvalSize v := by
    intro k v
    simp [dvalSize, dvalSizeEs]
  rw [hlim, hfull, hm, hm, size_ref_trunc 9, size_ref_nest 50]
  omega

end XmlIterator
